import Mathlib

/-!
Verification of the insights-core excerpt: the human-readable formatter
(src/insights/formats/text.py), the Lssap parser (src/insights/parsers/lssap.py),
and the dependency-driven execution engine the spec describes (the engine itself
is not part of the excerpt, so it is modelled from the spec).
-/

/- ===================================================================
   Part 1: the human-readable formatter (src/insights/formats/text.py)
   =================================================================== -/

/-- The named tuple `response(color, label, intl, title)` built in
`HumanReadableFormat.preprocess` (text.py lines 71-80).  Colorama colors are
modelled by their names. -/
structure Response where
  color : String
  label : String
  intl : String
  title : String
deriving DecidableEq, Repr

/-- The `self.responses` dictionary of `HumanReadableFormat.preprocess`
(text.py lines 72-80), in insertion order. -/
def responses : List (String × Response) :=
  [ ("skip", ⟨"BLUE", "SKIP", "S", "Missing Deps: "⟩)
  , ("pass", ⟨"GREEN", "PASS", "P", "Passed      : "⟩)
  , ("fingerprint", ⟨"YELLOW", "FINGERPRINT", "P", "Fingerprint : "⟩)
  , ("rule", ⟨"RED", "FAIL", "F", "Failed      : "⟩)
  , ("metadata", ⟨"YELLOW", "META", "M", "Metadata    : "⟩)
  , ("metadata_key", ⟨"MAGENTA", "META", "K", "Metadata Key: "⟩)
  , ("exception", ⟨"RED", "EXCEPT", "E", "Exceptions  : "⟩) ]

/-- The keys of `self.responses`: the classification tags the formatter
special-cases. -/
def responseKeys : List String := responses.map (·.1)

/-- Lookup in a Python dict modelled as an association list (`d.get(k)` or
`d[k]` when the key is present). -/
def dictLookup (d : List (String × String)) (k : String) : Option String :=
  (d.find? (fun p => p.1 == k)).map (·.2)

/-- `self.counts = {}; for key in self.responses: self.counts[key] = 0`
(text.py lines 82-84). -/
def initCounts : List (String × Nat) := responses.map (fun p => (p.1, 0))

/-- `counts[k] += n` on a counts dict modelled as an association list; a no-op
when the key is absent (in the formatter the key is always present, seeded by
`initCounts`). -/
def bump (counts : List (String × Nat)) (k : String) (n : Nat) : List (String × Nat) :=
  counts.map (fun p => if p.1 == k then (p.1, p.2 + n) else p)

/-- Read a counter, defaulting to 0. -/
def lookupD (counts : List (String × Nat)) (k : String) : Nat :=
  match counts.find? (fun p => p.1 == k) with
  | some p => p.2
  | none => 0

/-- What `progress_bar(c, broker)` sees for a completed unit `c`:
`broker.get(c)` (a result dict or nothing) and `broker.exceptions[c]`
(a list of captured exceptions when `c in broker.exceptions`). -/
structure PBView where
  result : Option (List (String × String))
  excs : Option (List String)
deriving DecidableEq, Repr

/-- The `elif c in broker.exceptions` branch of `progress_bar`
(text.py lines 103-105): bump `counts['exception']` by the number of captured
exceptions and print "E"; otherwise print nothing. -/
def pbElse (view : PBView) (counts : List (String × Nat)) : List (String × Nat) × String :=
  match view.excs with
  | some es => (bump counts "exception" es.length, "E")
  | none => (counts, "")

/-- `HumanReadableFormat.progress_bar` (text.py lines 92-106) as a pure
function: given the view of the completed unit and the running counts, return
the updated counts and the character printed.  The branch
`if v and isinstance(v, dict) and len(v) > 0 and 'type' in v` is taken for a
nonempty result dict holding a `type` key; an unknown type prints ".". -/
def progressBar (view : PBView) (counts : List (String × Nat)) : List (String × Nat) × String :=
  match view.result with
  | some (kv :: rest) =>
    match dictLookup (kv :: rest) "type" with
    | some t =>
      match responses.find? (fun p => p.1 == t) with
      | some p => (counts, p.2.intl)
      | none => (counts, ".")
    | none => pbElse view counts
  | some [] => pbElse view counts
  | none => pbElse view counts

/-- Folding `progress_bar` over the sequence of completed-unit views, keeping
only the counts. -/
def runProgress (views : List PBView) (counts : List (String × Nat)) : List (String × Nat) :=
  views.foldl (fun cs v => (progressBar v cs).1) counts

/-- A printed name/detail block of `show_description.printit`: the response
label and the rule name. -/
structure Block where
  label : String
  name : String
deriving DecidableEq, Repr

/-- `show_description.printit` (text.py lines 134-144) as a pure function:
`none` when nothing is printed, `some` block when the name/detail block is
printed, `.error` when `self.responses[v["type"]]` raises `KeyError`.
A missing or empty (falsy) `type` prints nothing; a `skip` result prints only
when `self.missing` is set. -/
def printit (missing : Bool) (c : String) (v : List (String × String)) :
    Except String (Option Block) :=
  match dictLookup v "type" with
  | none => .ok none
  | some t =>
    if t = "" then .ok none
    else
      match responses.find? (fun p => p.1 == t) with
      | none => .error t
      | some p =>
        if t = "skip" ∧ missing = false then .ok none
        else .ok (some ⟨p.2.label, c⟩)

/-- The loop of `HumanReadableFormat.show_description` (text.py lines 146-150)
over the broker's rule results `(name, result-dict)`: bump `counts[v["type"]]`
for known types (`v["type"]` raises on a result without a type), collect the
blocks printed by `printit`, and return the final counts with the blocks. -/
def show_description (missing : Bool) (counts : List (String × Nat)) :
    List (String × List (String × String)) → Except String (List (String × Nat) × List Block)
  | [] => .ok (counts, [])
  | cv :: rest =>
    match dictLookup cv.2 "type" with
    | none => .error "type"
    | some t =>
      let counts1 := if t ∈ responseKeys then bump counts t 1 else counts
      match printit missing cv.1 cv.2 with
      | .error e => .error e
      | .ok b =>
        match show_description missing counts1 rest with
        | .error e => .error e
        | .ok (fc, blocks) =>
          .ok (fc, match b with
                   | some blk => blk :: blocks
                   | none => blocks)

/-- The block `printit` contributes for one rule result (none on the
`KeyError` path, which aborts the surrounding loop anyway). -/
def blockOf (missing : Bool) (cv : String × List (String × String)) : Option Block :=
  match printit missing cv.1 cv.2 with
  | .ok b => b
  | .error _ => none

/-- The number printed after `Exceptions  : ` in the Rule Execution Summary:
`counts['exception']` after the `progress_bar` bumps of the run and the
`show_description` bumps over the rule results. -/
def summaryExceptionCount (views : List PBView)
    (rules : List (String × List (String × String))) : Except String Nat :=
  match show_description false (runProgress views initCounts) rules with
  | .error e => .error e
  | .ok (fc, _) => .ok (lookupD fc "exception")

/-- The number of rule results whose classification tag is `exception`. -/
def ruleExceptionTagCount (rules : List (String × List (String × String))) : Nat :=
  (rules.filter (fun cv => dictLookup cv.2 "type" == some "exception")).length

/-- A key of `broker.instances`, abstracted to what `_find_context` tests:
whether it is a class (`inspect.isclass`) and whether it is a subclass of
`ExecutionContext`. -/
structure InstKey where
  isClass : Bool
  subclassOfExecutionContext : Bool
deriving DecidableEq, Repr

/-- The test of text.py line 32:
`inspect.isclass(k) and issubclass(k, ExecutionContext)`. -/
def matchesCtx (k : InstKey) : Bool :=
  k.isClass && k.subclassOfExecutionContext

/-- `_find_context(broker)` (text.py lines 30-33): scan `broker.instances`
in order and return the value under the first key that is a class and a
subclass of `ExecutionContext`; `None` (falling off the loop) otherwise. -/
def find_context {V : Type} : List (InstKey × V) → Option V
  | [] => none
  | (k, v) :: rest => if matchesCtx k then some v else find_context rest

/-- An execution context as `show_dropped` uses it: its `all_files`. -/
structure Ctx where
  all_files : List String
deriving DecidableEq, Repr

/-- A datasource result as `show_dropped` uses it: either a single object with
a `path` or a list of objects each with a `path`. -/
inductive DSVal
  | one (path : String)
  | many (paths : List String)
deriving DecidableEq, Repr

/-- The paths a datasource result contributes to `vals`
(text.py lines 122-126). -/
def pathsOf : DSVal → List String
  | .one p => [p]
  | .many ps => ps

/-- The `vals` accumulation loop of `show_dropped` (text.py lines 121-126). -/
def collectPaths (ds : List DSVal) : List String :=
  ds.foldl (fun acc v => acc ++ pathsOf v) []

/-- What `show_dropped` reads off the broker: `broker.instances` (to find the
execution context) and the values of `broker.get_by_type(datasource)`. -/
structure DropBroker where
  instances : List (InstKey × Ctx)
  datasources : List DSVal

/-- `HumanReadableFormat.show_dropped` (text.py lines 116-129) as a pure
function returning the set printed: nothing when no execution context is found
or its `all_files` is empty (falsy), otherwise
`set(ctx.all_files) - set(vals)`. -/
def show_dropped (b : DropBroker) : Option (Finset String) :=
  match find_context b.instances with
  | none => none
  | some ctx =>
    if ctx.all_files = [] then none
    else some (ctx.all_files.toFinset \ (collectPaths b.datasources).toFinset)

/-- The capability tags of the spec data model (section 3). -/
inductive CompTag
  | datasource | parser | combiner | condition | rule | incident | metadata | metadata_key
deriving DecidableEq, BEq, Repr

/-- An observer selector per spec section 4.4: a specific unit identity or a
capability tag. -/
inductive Selector
  | tag (t : CompTag)
  | unitId (i : Nat)
deriving DecidableEq, BEq, Repr

/-- The callbacks the formatter can register (only `progress_bar` is ever
registered in text.py). -/
inductive ObsCallback
  | progressBarCb
deriving DecidableEq, BEq, Repr

/-- The broker's observer registrations. -/
structure ObsState where
  observers : List (ObsCallback × Selector)
deriving DecidableEq, Repr

/-- Modelled from the spec: `Broker.add_observer` (the broker is not part of
the excerpt).  Spec section 4.4: `addObserver(callback, selector)` appends a
registration; observers are later notified in registration order. -/
def add_observer (s : ObsState) (cb : ObsCallback) (sel : Selector) : ObsState :=
  ⟨s.observers ++ [(cb, sel)]⟩

/-- The four `add_observer` calls of `HumanReadableFormat.preprocess`
(text.py lines 87-90), in source order. -/
def preprocessRegister (s : ObsState) : ObsState :=
  let s1 := add_observer s .progressBarCb (.tag .rule)
  let s2 := add_observer s1 .progressBarCb (.tag .condition)
  let s3 := add_observer s2 .progressBarCb (.tag .incident)
  add_observer s3 .progressBarCb (.tag .parser)

/-- Modelled from the spec: selector matching for notification (spec section
4.4) - a selector matches a completed unit either by identity or by
capability tag. -/
def matchesSel (sel : Selector) (uid : Nat) (utag : CompTag) : Bool :=
  match sel with
  | .tag t => t == utag
  | .unitId i => i == uid

/-- Modelled from the spec: the callbacks notified when unit `uid` with tag
`utag` completes, in registration order (spec section 4.4). -/
def notifyList (s : ObsState) (uid : Nat) (utag : CompTag) : List ObsCallback :=
  (s.observers.filter (fun p => matchesSel p.2 uid utag)).map (·.1)

/- ===================================================================
   Part 2: the Lssap parser (src/insights/parsers/lssap.py)
   =================================================================== -/

/-- Whether `pat` is a prefix of the character list. -/
def startsWithL (pat : List Char) : List Char → Bool
  | [] => pat.isEmpty
  | c :: cs =>
    match pat with
    | [] => true
    | p :: ps => p == c && startsWithL ps cs

/-- Whether `pat` occurs as a contiguous substring of the character list
(Python `pat in s`). -/
def hasSubstr (pat : List Char) : List Char → Bool
  | [] => pat.isEmpty
  | c :: cs => startsWithL pat (c :: cs) || hasSubstr pat cs

/-- Python `s.split(sep)` for a single-character separator: no merging of
separators, empty fields kept. -/
def splitOnChar (sep : Char) : List Char → List (List Char)
  | [] => [[]]
  | c :: cs =>
    if c == sep then [] :: splitOnChar sep cs
    else
      match splitOnChar sep cs with
      | [] => [[c]]
      | w :: ws => (c :: w) :: ws

/-- Python `s.split()` with no argument, on character lists: split on runs of
whitespace, dropping empty fields; `acc` holds the current word reversed. -/
def splitWSAux : List Char → List Char → List (List Char)
  | [], acc => if acc.isEmpty then [] else [acc.reverse]
  | c :: cs, acc =>
    if c.isWhitespace then
      if acc.isEmpty then splitWSAux cs [] else acc.reverse :: splitWSAux cs []
    else splitWSAux cs (c :: acc)

/-- Python `s.split()` with no argument: the whitespace-separated words. -/
def splitWS (s : String) : List String :=
  (splitWSAux s.data []).map (fun l => ⟨l⟩)

/-- Python `s.strip()`: drop leading and trailing whitespace. -/
def pyStrip (s : String) : String :=
  ⟨((s.data.dropWhile (fun c => c.isWhitespace)).reverse.dropWhile
      (fun c => c.isWhitespace)).reverse⟩

/-- Modelled from the spec: `parse_delimited_table(content, delim='|',
header_delim=None)` of `insights.parsers` is not part of the excerpt.  Per the
module documentation and its sample output, the first line is a
whitespace-separated header and every following line is a `|`-delimited row;
each row is zipped with the header into a dict after stripping the cells. -/
def parse_delimited_table (lines : List String) : List (List (String × String)) :=
  match lines with
  | [] => []
  | header :: rows =>
    let keys := splitWS header
    rows.map (fun r => keys.zip ((splitOnChar '|' r.data).map (fun cell => pyStrip ⟨cell⟩)))

/-- Python `"SID" in s`: substring test. -/
def containsSID (s : String) : Bool :=
  hasSubstr "SID".data s.data

/-- Insert a string into a sorted list (ascending). -/
def insertSorted (s : String) : List String → List String
  | [] => [s]
  | x :: xs => if s < x then s :: x :: xs else x :: insertSorted s xs

/-- Ascending insertion sort on strings. -/
def sortStrings (l : List String) : List String :=
  l.foldr insertSorted []

/-- Python `sorted(set(l))`: distinct elements in ascending order. -/
def sortedSet (l : List String) : List String :=
  sortStrings l.dedup

/-- Python `s.rstrip('1234567890')`: drop trailing digits. -/
def rstripDigits (s : String) : String :=
  ⟨(s.data.reverse.dropWhile (fun c => c.isDigit)).reverse⟩

/-- The attributes `Lssap.parse_content` populates (lssap.py lines 50-61). -/
structure Lssap where
  data : List (List (String × String))
  sid : List String
  instances : List String
  instance_types : List String
deriving DecidableEq, Repr

/-- `content[2:-1]` (lssap.py line 53): drop the version line, the bar line
and the trailing line. -/
def cleanContent (content : List String) : List String :=
  (content.drop 2).dropLast

/-- `Lssap.parse_content` (lssap.py lines 50-61): after slicing off the first
two lines and the last line, parse the pipe-delimited table when the slice is
nonempty and its first line contains "SID", raise `ParseException` otherwise;
then derive `sid`, `instances` and `instance_types`. -/
def parse_content (content : List String) : Except String Lssap :=
  match cleanContent content with
  | [] =>
    .error ("Lssap: Unable to parse " ++ toString content.length ++ " line(s) of content")
  | first :: rest =>
    if containsSID first then
      let data := parse_delimited_table (first :: rest)
      let instances := data.filterMap (fun row => dictLookup row "Instance")
      .ok { data := data
          , sid := sortedSet (data.filterMap (fun row => dictLookup row "SID"))
          , instances := instances
          , instance_types := sortedSet (instances.map rstripDigits) }
    else
      .error ("Lssap: Unable to parse " ++ toString content.length ++ " line(s) of content")

/-- `Lssap.version(instance)` (lssap.py lines 63-69): walk `self.data` and
return the `Version` cell of the first row whose `Instance` cell equals the
argument; `None` when the loop falls through; `row['Instance']` and
`row['Version']` raise `KeyError` when the key is missing. -/
def version (data : List (List (String × String))) (inst : String) :
    Except String (Option String) :=
  match data with
  | [] => .ok none
  | row :: rest =>
    match dictLookup row "Instance" with
    | none => .error "KeyError: Instance"
    | some i =>
      if inst = i then
        match dictLookup row "Version" with
        | none => .error "KeyError: Version"
        | some v => .ok (some v)
      else version rest inst

/- ===================================================================
   Part 3: the execution engine, modelled from the spec
   (Registry, Graph Resolver, Broker execution loop; spec sections 2-4)
   =================================================================== -/

/-- Modelled from the spec: the Execution Outcome of a unit for one run
(spec section 3): `Value(v)`, `Skipped(missing_required_deps)` or
`Failed(error)`. -/
inductive Outcome (V : Type)
  | value (v : V)
  | skipped (missing : List Nat)
  | failed (err : String)
deriving DecidableEq, Repr

/-- Modelled from the spec: a registered computation unit as the Broker runs
it (spec section 3): identity, required and optional dependency identities,
and a computation body that receives the resolved values of its dependencies
(absent optional ones as `none`) and returns a result or raises. -/
structure RunUnit (V : Type) where
  id : Nat
  required : List Nat
  optional : List Nat
  body : List (Option V) → Except String V

/-- Modelled from the spec: the per-run Broker state (spec section 2):
outcomes keyed by unit identity (most recent first) and the identities whose
computation body was invoked, in invocation order. -/
structure Broker (V : Type) where
  outcomes : List (Nat × Outcome V)
  invocations : List Nat

/-- The empty Broker a run starts from. -/
def emptyBroker (V : Type) : Broker V := ⟨[], []⟩

/-- Look up the recorded Outcome of identity `i` in this run. -/
def getOutcome {V : Type} (b : Broker V) (i : Nat) : Option (Outcome V) :=
  (b.outcomes.find? (fun p => p.1 == i)).map (·.2)

/-- Whether a looked-up Outcome is a `Value` (spec section 4.3 step 1). -/
def isValue {V : Type} : Option (Outcome V) → Bool
  | some (.value _) => true
  | _ => false

/-- The resolved value handed to a body for one dependency: the `Value` if it
has one, the explicit absent marker otherwise (spec section 4.3 step 2). -/
def depValue {V : Type} (b : Broker V) (i : Nat) : Option V :=
  match getOutcome b i with
  | some (.value v) => some v
  | _ => none

/-- Modelled from the spec: one iteration of the Broker execution loop (spec
section 4.3).  If some required dependency has no `Value` Outcome, record
`Skipped` with the missing dependencies and do not invoke the body; otherwise
invoke the body on the resolved dependency values and record `Value` or
`Failed`. -/
def step {V : Type} (b : Broker V) (u : RunUnit V) : Broker V :=
  let missing := u.required.filter (fun d => !(isValue (getOutcome b d)))
  if missing.isEmpty then
    match u.body ((u.required ++ u.optional).map (depValue b)) with
    | .ok v => ⟨(u.id, .value v) :: b.outcomes, u.id :: b.invocations⟩
    | .error e => ⟨(u.id, .failed e) :: b.outcomes, u.id :: b.invocations⟩
  else
    ⟨(u.id, .skipped missing) :: b.outcomes, b.invocations⟩

/-- Modelled from the spec: `run(order)` walks the resolved order strictly in
sequence (spec section 4.3). -/
def run {V : Type} (order : List (RunUnit V)) (b : Broker V) : Broker V :=
  order.foldl step b

/-- Modelled from the spec: a unit as the Registry and the Resolver see it
(spec sections 3 and 4.1): identity plus required and optional dependency
identities. -/
structure RegUnit where
  id : Nat
  required : List Nat
  optional : List Nat
deriving DecidableEq, Repr

/-- The required+optional dependency edge set of one unit (spec section
4.2). -/
def depsOf (u : RegUnit) : List Nat := u.required ++ u.optional

/-- Modelled from the spec: the Registry, a catalog of units populated once at
load time (spec sections 2 and 4.1); `register` rejects duplicate identities,
so a well-formed Registry has distinct identities. -/
structure Registry where
  units : List RegUnit
deriving DecidableEq, Repr

/-- All registered identities, in registration order. -/
def Registry.ids (reg : Registry) : List Nat := reg.units.map (·.id)

/-- `lookup(identity)` (spec section 4.1). -/
def Registry.lookup (reg : Registry) (i : Nat) : Option RegUnit :=
  reg.units.find? (fun u => u.id == i)

/-- Modelled from the spec: resolve-time errors (spec sections 4.2 and 7):
`CyclicDependency(cycle_path)` and `UnresolvedDependency(identity)`.
`outOfFuel` is the embedding's bounded-recursion marker; it is unreachable for
the fuel `resolve` supplies. -/
inductive ResolveError
  | cyclic (path : List Nat)
  | unresolved (i : Nat)
  | outOfFuel
deriving DecidableEq, Repr

/-- Modelled from the spec: one vertex visit of the depth-first topological
sort (spec section 4.2): a node already emitted is skipped; a node on the
current path is a cycle; a node absent from the Registry is an unresolved
dependency; otherwise visit its dependencies depth-first, left to right, and
emit the node after them.  The fuel bounds the depth of the visiting path. -/
def dfsVisit (reg : Registry) : Nat → List Nat → List Nat → Nat →
    Except ResolveError (List Nat)
  | 0, _, _, _ => .error .outOfFuel
  | fuel + 1, visiting, out, n =>
    if n ∈ out then .ok out
    else if n ∈ visiting then .error (.cyclic (n :: visiting))
    else
      match reg.lookup n with
      | none => .error (.unresolved n)
      | some u =>
        match (depsOf u).foldlM (fun acc d => dfsVisit reg fuel (n :: visiting) acc d) out with
        | .error e => .error e
        | .ok out1 => .ok (out1 ++ [n])

/-- Visit a list of nodes depth-first in order, threading the emitted
prefix. -/
def dfsDeps (reg : Registry) (fuel : Nat) (visiting out : List Nat) (ds : List Nat) :
    Except ResolveError (List Nat) :=
  ds.foldlM (fun acc d => dfsVisit reg fuel visiting acc d) out

/-- Modelled from the spec: `resolve(units)` (spec section 4.2): depth-first
topological sort over the required+optional edges of every registered unit, in
registration order.  The fuel bounds the depth of the visiting path, which
never exceeds the number of registered identities. -/
def resolve (reg : Registry) : Except ResolveError (List Nat) :=
  dfsDeps reg (reg.units.length + 1) [] [] reg.ids

/-- The dependency edge relation of the Registry: `DepEdge reg a b` holds when
the registered unit `a` declares `b` as a required or optional dependency
(edge a -> b of spec section 4.2). -/
def DepEdge (reg : Registry) (a b : Nat) : Prop :=
  ∃ u, u ∈ reg.units ∧ u.id = a ∧ b ∈ depsOf u

/-- An acyclic registry: no identity depends on itself through one or more
edges (spec section 3, invariants). -/
def Acyclic (reg : Registry) : Prop :=
  ∀ n, ¬ Relation.TransGen (DepEdge reg) n n

/-- Every dependency referenced by a registered unit is itself registered
(otherwise `resolve` fails fast with `UnresolvedDependency`, spec section
4.2). -/
def ClosedReg (reg : Registry) : Prop :=
  ∀ u ∈ reg.units, ∀ d ∈ depsOf u, ∃ u2 ∈ reg.units, u2.id = d

instance (reg : Registry) : Decidable (ClosedReg reg) := by
  unfold ClosedReg; infer_instance

/-- The invariant of the emitted prefix of the depth-first sort: no
duplicates, only registered identities, and every emitted identity's
dependencies are emitted before it. -/
def TopoOut (reg : Registry) (out : List Nat) : Prop :=
  out.Nodup
  ∧ (∀ m ∈ out, ∃ u, u ∈ reg.units ∧ u.id = m)
  ∧ (∀ m ∈ out, ∀ u, reg.lookup m = some u →
      ∀ d ∈ depsOf u, d ∈ out ∧ out.indexOf d < out.indexOf m)

/-- Witness units for the Broker run-loop claims: a data provider whose body
raises. -/
def unitB2 : RunUnit Nat := ⟨0, [], [], fun _ => .error "boom"⟩

/-- Witness units for the Broker run-loop claims: a rule requiring the
provider. -/
def unitA2 : RunUnit Nat := ⟨1, [0], [], fun _ => .ok 5⟩

/-- Witness registry for the resolver claim: a three-unit chain with a
required edge and optional edges. -/
def regW : Registry := ⟨[⟨0, [], []⟩, ⟨1, [0], []⟩, ⟨2, [0], [1]⟩]⟩

/-- Counterexample registry for the resolver claim: acyclic, but unit 0
references the unregistered identity 1. -/
def regBad : Registry := ⟨[⟨0, [1], []⟩]⟩

/-- Decidable equality on `Except`, for evaluating the fallible functions at
concrete inputs. -/
instance {ε α : Type} [DecidableEq ε] [DecidableEq α] : DecidableEq (Except ε α)
  | .ok a, .ok b =>
    if h : a = b then .isTrue (by rw [h]) else .isFalse (fun he => h (Except.ok.inj he))
  | .error a, .error b =>
    if h : a = b then .isTrue (by rw [h]) else .isFalse (fun he => h (Except.error.inj he))
  | .ok _, .error _ => .isFalse (fun he => Except.noConfusion he)
  | .error _, .ok _ => .isFalse (fun he => Except.noConfusion he)

/- ===================================================================
   Part 4: theorems
   =================================================================== -/

/-- Claim C1 (corrected): the classification vocabulary the human-readable
formatter handles is exactly the closed set
{skip, pass, fingerprint, rule, metadata, metadata_key, exception}; a rule
that fired carries the tag "rule", which the formatter renders with the label
FAIL and the progress letter F. -/
theorem C1_vocabulary :
    responseKeys = ["skip", "pass", "fingerprint", "rule", "metadata", "metadata_key", "exception"]
    ∧ (responses.find? (fun p => p.1 == "rule")).map (fun p => p.2.label) = some "FAIL"
    ∧ "fail" ∉ responseKeys
    ∧ (progressBar ⟨some [("type", "rule")], none⟩ initCounts).2 = "F" :=
  ⟨rfl, rfl, by decide, rfl⟩

/-- Claim C1 counterexample: "fail" is not among the tags the formatter
handles (a result typed "fail" falls through to the default "." branch of
`progress_bar`), while the tag of a fired rule, "rule", is handled. -/
theorem C1_counterexample :
    "fail" ∉ responseKeys ∧ "rule" ∈ responseKeys
    ∧ (progressBar ⟨some [("type", "fail")], none⟩ initCounts).2 = "." :=
  ⟨by decide, by decide, rfl⟩

/-- Claim C4 (code bug), evaluated at the failing input: a run whose progress
observed one parser with a single captured exception and no result, with no
rule results at all.  The Rule Execution Summary prints an exception count of
1, while the number of rule results classified "exception" is 0: the printed
count is not a function of the rule results' classification tags. -/
theorem C4_exception_count_drift :
    summaryExceptionCount [⟨none, some ["boom"]⟩] [] = .ok 1
    ∧ ruleExceptionTagCount [] = 0 :=
  ⟨rfl, rfl⟩

/-- Claim C7: `preprocess` registers `progress_bar` as an observer using
capability-tag selectors only, for exactly the tags rule, condition, incident
and parser, in that order; whatever its identity, a completed unit of one of
those kinds notifies the formatter exactly once, and a unit of another kind
(for example a datasource) not at all. -/
theorem C7_preprocess_observers (uid : Nat) :
    (preprocessRegister ⟨[]⟩).observers =
      [ (.progressBarCb, .tag .rule), (.progressBarCb, .tag .condition)
      , (.progressBarCb, .tag .incident), (.progressBarCb, .tag .parser) ]
    ∧ notifyList (preprocessRegister ⟨[]⟩) uid .rule = [.progressBarCb]
    ∧ notifyList (preprocessRegister ⟨[]⟩) uid .condition = [.progressBarCb]
    ∧ notifyList (preprocessRegister ⟨[]⟩) uid .incident = [.progressBarCb]
    ∧ notifyList (preprocessRegister ⟨[]⟩) uid .parser = [.progressBarCb]
    ∧ notifyList (preprocessRegister ⟨[]⟩) uid .datasource = [] :=
  ⟨rfl, rfl, rfl, rfl, rfl, rfl⟩

/-- Claim C5: `_find_context(broker)` scans `broker.instances` and returns
the value stored under a key that is a class and a subclass of
`ExecutionContext`, and returns None when no key of `broker.instances`
matches. -/
theorem C5_find_context {V : Type} (l : List (InstKey × V)) :
    (∀ v, find_context l = some v → ∃ k, (k, v) ∈ l ∧ matchesCtx k = true)
    ∧ ((∀ p ∈ l, matchesCtx p.1 = false) → find_context l = none)
    ∧ (∀ p ∈ l, matchesCtx p.1 = true → ∃ v, find_context l = some v) := by
  induction l with
  | nil =>
    refine ⟨fun v h => by simp [find_context] at h, fun _ => rfl, fun p hp _ => ?_⟩
    cases hp
  | cons p rest ih =>
    obtain ⟨k, v⟩ := p
    by_cases hm : matchesCtx k
    · refine ⟨fun w hw => ?_, fun hall => ?_, fun q hq _ => ?_⟩
      · simp only [find_context, hm, if_pos] at hw
        obtain rfl := Option.some.inj hw
        exact ⟨k, List.mem_cons_self _ _, hm⟩
      · exact absurd hm (by simpa using hall (k, v) (List.mem_cons_self _ _))
      · exact ⟨v, by simp [find_context, hm]⟩
    · refine ⟨fun w hw => ?_, fun hall => ?_, fun q hq hmq => ?_⟩
      · simp only [find_context, hm, if_neg, if_false] at hw
        obtain ⟨k2, hk2, hmk2⟩ := ih.1 w (by simpa using hw)
        exact ⟨k2, List.mem_cons_of_mem _ hk2, hmk2⟩
      · simp only [find_context, hm, if_false]
        exact ih.2.1 (fun q hq => hall q (List.mem_cons_of_mem _ hq))
      · rcases List.mem_cons.mp hq with rfl | hq2
        · exact absurd hmq (by simpa using hm)
        · obtain ⟨w, hw⟩ := ih.2.2 q hq2 hmq
          exact ⟨w, by simp only [find_context, hm, if_false]; exact hw⟩

/-- Witness for C5 at concrete brokers: one whose single key is a class
deriving ExecutionContext, one whose single key is not. -/
theorem C5_find_context_witness :
    (∃ k, (k, (42 : Nat)) ∈ [((⟨true, true⟩ : InstKey), (42 : Nat))] ∧ matchesCtx k = true)
    ∧ find_context [((⟨true, false⟩ : InstKey), (7 : Nat))] = none
    ∧ (∃ v, find_context
        [((⟨true, false⟩ : InstKey), (7 : Nat)), ((⟨true, true⟩ : InstKey), (42 : Nat))] =
          some v) :=
  ⟨(C5_find_context [(⟨true, true⟩, 42)]).1 42 rfl,
   (C5_find_context [(⟨true, false⟩, 7)]).2.1 (by decide),
   (C5_find_context [(⟨true, false⟩, 7), (⟨true, true⟩, 42)]).2.2 (⟨true, true⟩, 42)
     (List.Mem.tail _ (List.Mem.head _)) rfl⟩

/-- Membership in the `vals` accumulation of `show_dropped`, generalized over
the accumulator. -/
theorem mem_collectPaths_aux (ds : List DSVal) :
    ∀ (acc : List String) (p : String),
      p ∈ ds.foldl (fun a v => a ++ pathsOf v) acc ↔ p ∈ acc ∨ ∃ v ∈ ds, p ∈ pathsOf v := by
  induction ds with
  | nil => intro acc p; simp
  | cons d rest ih =>
    intro acc p
    simp only [List.foldl_cons]
    rw [ih]
    simp [List.mem_append, or_assoc]

/-- A path is collected from the datasource results exactly when some
datasource result contributes it. -/
theorem mem_collectPaths (ds : List DSVal) (p : String) :
    p ∈ collectPaths ds ↔ ∃ v ∈ ds, p ∈ pathsOf v := by
  simpa using mem_collectPaths_aux ds [] p

/-- Claim C6: when an execution context with nonempty `all_files` is found in
the broker, `show_dropped` prints exactly the set difference of the context's
`all_files` and the paths of all datasource results (a list-valued result
contributing the path of each element); with no execution context, or one
with no files, it prints nothing. -/
theorem C6_show_dropped (b : DropBroker) (p : String) :
    (∀ ctx, find_context b.instances = some ctx → ctx.all_files ≠ [] →
        show_dropped b = some (ctx.all_files.toFinset \ (collectPaths b.datasources).toFinset)
        ∧ (p ∈ ctx.all_files.toFinset \ (collectPaths b.datasources).toFinset ↔
            p ∈ ctx.all_files ∧ ¬ ∃ v ∈ b.datasources, p ∈ pathsOf v))
    ∧ (find_context b.instances = none → show_dropped b = none)
    ∧ (∀ ctx, find_context b.instances = some ctx → ctx.all_files = [] →
        show_dropped b = none) := by
  refine ⟨fun ctx hctx hne => ⟨?_, ?_⟩, fun h => ?_, fun ctx hctx he => ?_⟩
  · simp [show_dropped, hctx, hne]
  · rw [Finset.mem_sdiff, List.mem_toFinset, List.mem_toFinset, mem_collectPaths]
  · simp [show_dropped, h]
  · simp [show_dropped, hctx, he]

/-- Witness for C6 at a concrete broker: context files {"a","b"}, one
datasource with path "a"; the file "b" is reported dropped. -/
theorem C6_show_dropped_witness :
    show_dropped ⟨[(⟨true, true⟩, ⟨["a", "b"]⟩)], [.one "a"]⟩ =
      some ((["a", "b"] : List String).toFinset \ (collectPaths [.one "a"]).toFinset)
    ∧ ("b" ∈ (["a", "b"] : List String).toFinset \ (collectPaths [.one "a"]).toFinset ↔
        "b" ∈ (["a", "b"] : List String) ∧ ¬ ∃ v ∈ ([.one "a"] : List DSVal), "b" ∈ pathsOf v) :=
  (C6_show_dropped ⟨[(⟨true, true⟩, ⟨["a", "b"]⟩)], [.one "a"]⟩ "b").1 ⟨["a", "b"]⟩ rfl
    (by decide)

/-- A list of length at most one loses everything to `dropLast`. -/
theorem dropLast_eq_nil_of_length_le_one {α : Type} (l : List α) (h : l.length ≤ 1) :
    l.dropLast = [] := by
  match l with
  | [] => rfl
  | [a] => rfl
  | a :: b :: t => simp at h

/-- Fewer than four content lines leave nothing after the `content[2:-1]`
slice. -/
theorem cleanContent_eq_nil_of_short (content : List String) (h : content.length < 4) :
    cleanContent content = [] := by
  unfold cleanContent
  apply dropLast_eq_nil_of_length_le_one
  rw [List.length_drop]
  omega

/-- Claim C8: `Lssap.parse_content` raises `ParseException` exactly when,
after dropping the first two lines and the last line, the remaining slice is
empty or its first line does not contain "SID"; every input with fewer than
four lines raises; on success, `data` is the pipe-delimited table of the
slice and `sid`, `instances`, `instance_types` are derived from it. -/
theorem C8_parse_content_spec (content : List String) :
    ((∃ e, parse_content content = .error e) ↔
      (cleanContent content = [] ∨
        ∃ first rest, cleanContent content = first :: rest ∧ containsSID first = false))
    ∧ (content.length < 4 → ∃ e, parse_content content = .error e)
    ∧ (∀ r, parse_content content = .ok r →
        r.data = parse_delimited_table (cleanContent content)
        ∧ r.sid = sortedSet (r.data.filterMap (fun row => dictLookup row "SID"))
        ∧ r.instances = r.data.filterMap (fun row => dictLookup row "Instance")
        ∧ r.instance_types = sortedSet (r.instances.map rstripDigits)) := by
  rcases hcc : cleanContent content with _ | ⟨first, rest⟩
  · have herr : parse_content content =
        .error ("Lssap: Unable to parse " ++ toString content.length ++ " line(s) of content") := by
      simp [parse_content, hcc]
    refine ⟨⟨fun _ => Or.inl rfl, fun _ => ⟨_, herr⟩⟩, fun _ => ⟨_, herr⟩, fun r hr => ?_⟩
    rw [herr] at hr
    cases hr
  · by_cases hsid : containsSID first
    · have hok : parse_content content =
          .ok { data := parse_delimited_table (first :: rest)
              , sid := sortedSet ((parse_delimited_table (first :: rest)).filterMap
                  (fun row => dictLookup row "SID"))
              , instances := (parse_delimited_table (first :: rest)).filterMap
                  (fun row => dictLookup row "Instance")
              , instance_types := sortedSet (((parse_delimited_table (first :: rest)).filterMap
                  (fun row => dictLookup row "Instance")).map rstripDigits) } := by
        simp [parse_content, hcc, hsid]
      refine ⟨⟨fun he => ?_, fun h => ?_⟩, fun hlen => ?_, fun r hr => ?_⟩
      · obtain ⟨e, he⟩ := he
        rw [hok] at he
        cases he
      · rcases h with h | ⟨f2, r2, hf2, hs2⟩
        · exact absurd h (List.cons_ne_nil _ _)
        · obtain ⟨rfl, -⟩ : f2 = first ∧ r2 = rest := by
            refine ⟨?_, ?_⟩ <;> injection hf2 <;> simp_all
          rw [hsid] at hs2
          cases hs2
      · have hnil := cleanContent_eq_nil_of_short content hlen
        rw [hcc] at hnil
        exact absurd hnil (List.cons_ne_nil _ _)
      · rw [hok] at hr
        obtain rfl := Except.ok.inj hr
        exact ⟨rfl, rfl, rfl, rfl⟩
    · have hsid0 : containsSID first = false := by
        simpa using hsid
      have herr : parse_content content =
          .error ("Lssap: Unable to parse " ++ toString content.length ++ " line(s) of content") := by
        simp [parse_content, hcc, hsid0]
      refine ⟨⟨fun _ => Or.inr ⟨first, rest, rfl, hsid0⟩, fun _ => ⟨_, herr⟩⟩,
        fun _ => ⟨_, herr⟩, fun r hr => ?_⟩
      rw [herr] at hr
      cases hr

/-- Witness for C8: a three-line input (slice empty) raises. -/
theorem C8_parse_content_witness :
    ∃ e, parse_content ["a", "b", "c"] = .error e :=
  (C8_parse_content_spec ["a", "b", "c"]).2.1 (by decide)

/-- Claim C9 (amended): on data whose rows all carry `Instance` and `Version`
fields, `version(instance)` returns the `Version` field of the first row
whose `Instance` field equals the argument, and `None` when no row matches;
the function reads `data` without modifying it. -/
theorem C9_version_first_match (data : List (List (String × String))) (inst : String)
    (h : ∀ row ∈ data, (dictLookup row "Instance").isSome ∧ (dictLookup row "Version").isSome) :
    version data inst =
      .ok ((data.find? (fun row => dictLookup row "Instance" == some inst)).bind
            (fun row => dictLookup row "Version")) := by
  induction data with
  | nil => rfl
  | cons row rest ih =>
    obtain ⟨hi, hv⟩ := h row (List.mem_cons_self _ _)
    obtain ⟨i, hi⟩ := Option.isSome_iff_exists.mp hi
    obtain ⟨v, hv⟩ := Option.isSome_iff_exists.mp hv
    by_cases he : inst = i
    · subst he
      simp [version, hi, hv, List.find?_cons]
    · have hne : (some i == some inst) = false := by
        simp only [beq_eq_false_iff_ne, ne_eq, Option.some.injEq]
        exact fun heq => he heq.symm
      simp only [version, hi, List.find?_cons, hne]
      rw [if_neg he]
      exact ih (fun r hr => h r (List.mem_cons_of_mem _ hr))

/-- Witness for C9 at a one-row table. -/
theorem C9_version_witness :
    version [[("Instance", "D16"), ("Version", "749")]] "D16" = .ok (some "749") :=
  (C9_version_first_match [[("Instance", "D16"), ("Version", "749")]] "D16" (by decide)).trans
    rfl

/-- Claim C9 counterexample: the input parses successfully into a table whose
single row has no `Instance` field, so no row matches "HA2"; `version` then
raises `KeyError` instead of returning `None`. -/
theorem C9_counterexample :
    parse_content ["l1", "l2", "SID", "HA2|x", "end"] =
      .ok ⟨[[("SID", "HA2")]], ["HA2"], [], []⟩
    ∧ List.find? (fun row => dictLookup row "Instance" == some "HA2") [[("SID", "HA2")]] = none
    ∧ version [[("SID", "HA2")]] "HA2" = .error "KeyError: Instance" :=
  ⟨by decide, by decide, by decide⟩

/-- Unfolding `bump` over a cons cell. -/
theorem bump_cons (p : String × Nat) (rest : List (String × Nat)) (k : String) (n : Nat) :
    bump (p :: rest) k n = (if p.1 == k then (p.1, p.2 + n) else p) :: bump rest k n := rfl

/-- Unfolding `lookupD` over a cons cell. -/
theorem lookupD_cons (q : String × Nat) (m : List (String × Nat)) (k : String) :
    lookupD (q :: m) k = if q.1 == k then q.2 else lookupD m k := by
  by_cases h : (q.1 == k) = true
  · simp [lookupD, List.find?_cons, h]
  · simp [lookupD, List.find?_cons, h]

/-- Bumping a counter does not change the key set of the counts dict. -/
theorem keys_bump (m : List (String × Nat)) (k : String) (n : Nat) :
    (bump m k n).map (·.1) = m.map (·.1) := by
  induction m with
  | nil => rfl
  | cons p rest ih =>
    by_cases h : (p.1 == k) = true
    · have hb : bump (p :: rest) k n = (p.1, p.2 + n) :: bump rest k n := by
        rw [bump_cons, if_pos h]
      rw [hb, List.map_cons, List.map_cons, ih]
    · have hb : bump (p :: rest) k n = p :: bump rest k n := by
        rw [bump_cons, if_neg h]
      rw [hb, List.map_cons, List.map_cons, ih]

/-- Reading the bumped key after a bump adds exactly the increment, provided
the key is present. -/
theorem lookupD_bump_self (m : List (String × Nat)) (k : String) (n : Nat)
    (h : k ∈ m.map (·.1)) :
    lookupD (bump m k n) k = lookupD m k + n := by
  induction m with
  | nil => simp at h
  | cons p rest ih =>
    by_cases hp : (p.1 == k) = true
    · have hb : bump (p :: rest) k n = (p.1, p.2 + n) :: bump rest k n := by
        rw [bump_cons, if_pos hp]
      rw [hb, lookupD_cons, lookupD_cons]
      simp [hp]
    · have hb : bump (p :: rest) k n = p :: bump rest k n := by
        rw [bump_cons, if_neg hp]
      have hk2 : k ∈ rest.map (·.1) := by
        rw [List.map_cons, List.mem_cons] at h
        rcases h with h1 | h1
        · exact absurd (beq_iff_eq.mpr h1.symm) hp
        · exact h1
      rw [hb, lookupD_cons, lookupD_cons, if_neg hp, if_neg hp]
      exact ih hk2

/-- Reading any other key is unaffected by a bump. -/
theorem lookupD_bump_other (m : List (String × Nat)) (k k2 : String) (n : Nat)
    (hne : k2 ≠ k) :
    lookupD (bump m k n) k2 = lookupD m k2 := by
  induction m with
  | nil => rfl
  | cons p rest ih =>
    by_cases hp : (p.1 == k) = true
    · have hb : bump (p :: rest) k n = (p.1, p.2 + n) :: bump rest k n := by
        rw [bump_cons, if_pos hp]
      have hq : (p.1 == k2) = false := by
        have : p.1 = k := by simpa using hp
        simp [this]
        exact fun he => hne he.symm
      rw [hb, lookupD_cons, lookupD_cons, if_neg (by simp [hq]), if_neg (by simp [hq])]
      exact ih
    · have hb : bump (p :: rest) k n = p :: bump rest k n := by
        rw [bump_cons, if_neg hp]
      rw [hb, lookupD_cons, lookupD_cons]
      by_cases hq : (p.1 == k2) = true
      · rw [if_pos hq, if_pos hq]
      · rw [if_neg hq, if_neg hq]
        exact ih

/-- On success, `show_description` prints exactly the blocks `printit`
produces for the rule results, in order. -/
theorem show_description_blocks (missing : Bool) :
    ∀ (rules : List (String × List (String × String))) (counts fc : List (String × Nat))
      (blocks : List Block),
      show_description missing counts rules = .ok (fc, blocks) →
      blocks = rules.filterMap (blockOf missing) := by
  intro rules
  induction rules with
  | nil =>
    intro counts fc blocks h
    simp only [show_description] at h
    injection Except.ok.inj h with h1 h2
    exact h2.symm
  | cons cv rest ih =>
    intro counts fc blocks h
    simp only [show_description] at h
    cases hty : dictLookup cv.2 "type" with
    | none => simp [hty] at h
    | some t =>
      simp only [hty] at h
      cases hpr : printit missing cv.1 cv.2 with
      | error e => simp [hpr] at h
      | ok b =>
        simp only [hpr] at h
        cases hrec : show_description missing
            (if t ∈ responseKeys then bump counts t 1 else counts) rest with
        | error e => simp [hrec] at h
        | ok pr =>
          obtain ⟨fc2, blocks2⟩ := pr
          simp only [hrec] at h
          injection Except.ok.inj h with h1 h2
          have hrest := ih _ _ _ hrec
          have hbo : blockOf missing cv = b := by
            simp [blockOf, hpr]
          cases b with
          | none =>
            simp only [List.filterMap_cons, hbo]
            rw [← h2, hrest]
          | some blk =>
            simp only [List.filterMap_cons, hbo]
            rw [← h2, hrest]

/-- On success, the final `skip` count of `show_description` is the starting
`skip` count plus the number of rule results typed `skip`, provided the counts
dict carries a `skip` key. -/
theorem show_description_skip_count (missing : Bool) :
    ∀ (rules : List (String × List (String × String))) (counts fc : List (String × Nat))
      (blocks : List Block),
      "skip" ∈ counts.map (·.1) →
      show_description missing counts rules = .ok (fc, blocks) →
      lookupD fc "skip" = lookupD counts "skip" +
        (rules.filter (fun cv => dictLookup cv.2 "type" == some "skip")).length := by
  intro rules
  induction rules with
  | nil =>
    intro counts fc blocks hk h
    simp only [show_description] at h
    injection Except.ok.inj h with h1 h2
    rw [← h1]
    simp
  | cons cv rest ih =>
    intro counts fc blocks hk h
    simp only [show_description] at h
    cases hty : dictLookup cv.2 "type" with
    | none => simp [hty] at h
    | some t =>
      simp only [hty] at h
      cases hpr : printit missing cv.1 cv.2 with
      | error e => simp [hpr] at h
      | ok b =>
        simp only [hpr] at h
        cases hrec : show_description missing
            (if t ∈ responseKeys then bump counts t 1 else counts) rest with
        | error e => simp [hrec] at h
        | ok pr =>
          obtain ⟨fc2, blocks2⟩ := pr
          simp only [hrec] at h
          injection Except.ok.inj h with h1 h2
          have hk1 : "skip" ∈
              (if t ∈ responseKeys then bump counts t 1 else counts).map (·.1) := by
            by_cases hmem : t ∈ responseKeys
            · rw [if_pos hmem, keys_bump]; exact hk
            · rw [if_neg hmem]; exact hk
          have hrest := ih _ _ _ hk1 hrec
          rw [h1] at hrest
          by_cases hts : t = "skip"
          · subst hts
            have hmem : "skip" ∈ responseKeys := by decide
            rw [if_pos hmem] at hrest
            rw [lookupD_bump_self counts "skip" 1 hk] at hrest
            have hfilt : (List.filter (fun cv => dictLookup cv.2 "type" == some "skip")
                (cv :: rest)).length =
                (List.filter (fun cv => dictLookup cv.2 "type" == some "skip") rest).length
                  + 1 := by
              simp [List.filter_cons, hty]
            rw [hfilt]
            omega
          · have hfilt : (List.filter (fun cv => dictLookup cv.2 "type" == some "skip")
                (cv :: rest)).length =
                (List.filter (fun cv => dictLookup cv.2 "type" == some "skip") rest).length := by
              have hne : (dictLookup cv.2 "type" == some "skip") = false := by
                simp [hty]
                exact hts
              simp [List.filter_cons, hne]
            rw [hfilt]
            by_cases hmem : t ∈ responseKeys
            · rw [if_pos hmem] at hrest
              rw [lookupD_bump_other counts t "skip" 1 (fun he => hts he.symm)] at hrest
              exact hrest
            · rw [if_neg hmem] at hrest
              exact hrest

/-- Claim C10: with `missing=False`, `show_description` prints no name/detail
block for a rule whose result type is `skip` while still counting it in the
skip count of the Rule Execution Summary; with `missing=True` the block for
such a rule is printed (label SKIP, the rule's name). -/
theorem C10_missing_flag (rules : List (String × List (String × String)))
    (fcF fcT : List (String × Nat)) (blocksF blocksT : List Block)
    (cv : String × List (String × String))
    (h0 : show_description false initCounts rules = .ok (fcF, blocksF))
    (h1 : show_description true initCounts rules = .ok (fcT, blocksT))
    (_hcv : cv ∈ rules)
    (hskip : dictLookup cv.2 "type" = some "skip") :
    blockOf false cv = none
    ∧ blockOf true cv = some ⟨"SKIP", cv.1⟩
    ∧ blocksF = rules.filterMap (blockOf false)
    ∧ blocksT = rules.filterMap (blockOf true)
    ∧ lookupD fcF "skip" =
        (rules.filter (fun x => dictLookup x.2 "type" == some "skip")).length := by
  refine ⟨?_, ?_, show_description_blocks false rules initCounts fcF blocksF h0,
    show_description_blocks true rules initCounts fcT blocksT h1, ?_⟩
  · simp only [blockOf, printit, hskip]
    rfl
  · simp only [blockOf, printit, hskip]
    rfl
  · have hcount := show_description_skip_count false rules initCounts fcF blocksF
      (by decide) h0
    rw [hcount]
    have h00 : lookupD initCounts "skip" = 0 := rfl
    rw [h00]
    omega

/-- Witness for C10 at a single skip-typed rule result. -/
theorem C10_missing_flag_witness :
    blockOf false ("r1", [("type", "skip")]) = none
    ∧ blockOf true ("r1", [("type", "skip")]) = some ⟨"SKIP", "r1"⟩
    ∧ ([] : List Block) = [("r1", [("type", "skip")])].filterMap (blockOf false)
    ∧ [(⟨"SKIP", "r1"⟩ : Block)] = [("r1", [("type", "skip")])].filterMap (blockOf true)
    ∧ lookupD [("skip", 1), ("pass", 0), ("fingerprint", 0), ("rule", 0), ("metadata", 0),
        ("metadata_key", 0), ("exception", 0)] "skip" =
        ([("r1", [("type", "skip")])].filter
          (fun x => dictLookup x.2 "type" == some "skip")).length :=
  C10_missing_flag [("r1", [("type", "skip")])]
    [("skip", 1), ("pass", 0), ("fingerprint", 0), ("rule", 0), ("metadata", 0),
      ("metadata_key", 0), ("exception", 0)]
    [("skip", 1), ("pass", 0), ("fingerprint", 0), ("rule", 0), ("metadata", 0),
      ("metadata_key", 0), ("exception", 0)]
    [] [⟨"SKIP", "r1"⟩] ("r1", [("type", "skip")])
    (by decide) (by decide) (List.mem_cons_self _ _) rfl

/-- A step leaves the recorded outcome of any other identity unchanged. -/
theorem getOutcome_step_other {V : Type} (b : Broker V) (u : RunUnit V) (i : Nat)
    (h : i ≠ u.id) : getOutcome (step b u) i = getOutcome b i := by
  have hne : (u.id == i) = false := by
    simp only [beq_eq_false_iff_ne, ne_eq]
    exact fun he => h he.symm
  unfold step
  by_cases hm : (u.required.filter (fun d => !(isValue (getOutcome b d)))).isEmpty
  · simp only [if_pos hm]
    cases hb : u.body ((u.required ++ u.optional).map (depValue b)) with
    | ok v => simp [getOutcome, List.find?_cons, hne]
    | error e => simp [getOutcome, List.find?_cons, hne]
  · simp only [if_neg hm]
    simp [getOutcome, List.find?_cons, hne]

/-- A step never adds an invocation of any other identity. -/
theorem invocations_step_other {V : Type} (b : Broker V) (u : RunUnit V) (i : Nat)
    (h : i ≠ u.id) : (step b u).invocations.count i = b.invocations.count i := by
  unfold step
  by_cases hm : (u.required.filter (fun d => !(isValue (getOutcome b d)))).isEmpty
  · simp only [if_pos hm]
    cases hb : u.body ((u.required ++ u.optional).map (depValue b)) with
    | ok v => simp [List.count_cons, h]
    | error e => simp [List.count_cons, h]
  · simp only [if_neg hm]

/-- Running units none of which carry identity `i` changes neither the
recorded outcome of `i` nor its invocation count. -/
theorem run_stable {V : Type} (us : List (RunUnit V)) :
    ∀ (b : Broker V) (i : Nat), i ∉ us.map (·.id) →
      getOutcome (run us b) i = getOutcome b i
      ∧ (run us b).invocations.count i = b.invocations.count i := by
  induction us with
  | nil => intro b i _; exact ⟨rfl, rfl⟩
  | cons u rest ih =>
    intro b i h
    have hne : i ≠ u.id := fun he => h (by simp [he])
    have hrest : i ∉ rest.map (·.id) := fun hm => h (by simp [hm])
    have hr := ih (step b u) i hrest
    exact ⟨hr.1.trans (getOutcome_step_other b u i hne),
      hr.2.trans (invocations_step_other b u i hne)⟩

/-- A recorded outcome after a run comes either from one of the run units or
from the starting broker. -/
theorem run_some_origin {V : Type} (us : List (RunUnit V)) :
    ∀ (b : Broker V) (i : Nat) (o : Outcome V),
      getOutcome (run us b) i = some o → i ∈ us.map (·.id) ∨ getOutcome b i = some o := by
  induction us with
  | nil => intro b i o h; exact Or.inr h
  | cons u rest ih =>
    intro b i o h
    rcases ih (step b u) i o h with hm | hs
    · exact Or.inl (by simp [hm])
    · by_cases he : i = u.id
      · exact Or.inl (by simp [he])
      · rw [getOutcome_step_other b u i he] at hs
        exact Or.inr hs

/-- When a required dependency has no `Value` outcome at a unit's turn, the
step records `Skipped` (with that dependency among the missing ones) and does
not invoke the body. -/
theorem step_skips {V : Type} (b : Broker V) (u : RunUnit V) (d : Nat)
    (hd : d ∈ u.required) (hnv : isValue (getOutcome b d) = false) :
    getOutcome (step b u) u.id =
      some (.skipped (u.required.filter (fun x => !(isValue (getOutcome b x)))))
    ∧ d ∈ u.required.filter (fun x => !(isValue (getOutcome b x)))
    ∧ (step b u).invocations = b.invocations := by
  have hmem : d ∈ u.required.filter (fun x => !(isValue (getOutcome b x))) := by
    rw [List.mem_filter]
    exact ⟨hd, by rw [hnv]; rfl⟩
  have hne : (u.required.filter (fun x => !(isValue (getOutcome b x)))).isEmpty = false := by
    cases hf : u.required.filter (fun x => !(isValue (getOutcome b x))) with
    | nil => rw [hf] at hmem; exact absurd hmem (List.not_mem_nil _)
    | cons x xs => rfl
  refine ⟨?_, hmem, ?_⟩
  · unfold step
    rw [if_neg (by simp [hne])]
    simp [getOutcome, List.find?_cons]
  · unfold step
    rw [if_neg (by simp [hne])]

/-- Claim C2: in any run over an order in which every unit identity occurs at
most once, if unit A lists `bid` among its required dependencies and the
outcome recorded for `bid` is `Skipped` or `Failed`, then A's outcome is
`Skipped` (with `bid` among the missing dependencies) and A's body is never
invoked: its invocation count stays 0.  (A dependency declared optional is in
`optional`, not `required`, and does not trigger this.) -/
theorem C2_skip_propagation {V : Type} (order : List (RunUnit V)) (A : RunUnit V) (bid : Nat)
    (hnd : (order.map (·.id)).Nodup)
    (hA : A ∈ order)
    (hreq : bid ∈ A.required)
    (hB : (∃ ms, getOutcome (run order (emptyBroker V)) bid = some (.skipped ms))
        ∨ (∃ e, getOutcome (run order (emptyBroker V)) bid = some (.failed e))) :
    (∃ ms, getOutcome (run order (emptyBroker V)) A.id = some (.skipped ms) ∧ bid ∈ ms)
    ∧ (run order (emptyBroker V)).invocations.count A.id = 0 := by
  obtain ⟨pre, post, rfl⟩ := List.append_of_mem hA
  have hsplit : ∀ b : Broker V, run (pre ++ A :: post) b = run post (step (run pre b) A) := by
    intro b
    simp [run, List.foldl_append]
  have hmap : (pre.map (·.id) ++ A.id :: post.map (·.id)).Nodup := by
    simpa using hnd
  have hndpre := (List.nodup_append.mp hmap).1
  have hndrest := (List.nodup_append.mp hmap).2.1
  have hdisj := (List.nodup_append.mp hmap).2.2
  have hApre : A.id ∉ pre.map (·.id) := by
    intro hmem
    exact hdisj hmem (List.mem_cons_self _ _)
  have hApost : A.id ∉ post.map (·.id) := (List.nodup_cons.mp hndrest).1
  have hnotval : ∀ v : V,
      getOutcome (run (pre ++ A :: post) (emptyBroker V)) bid ≠ some (.value v) := by
    intro v hv
    rcases hB with ⟨ms, hms⟩ | ⟨e, he⟩
    · rw [hms] at hv
      cases Option.some.inj hv
    · rw [he] at hv
      cases Option.some.inj hv
  by_cases hval : isValue (getOutcome (run pre (emptyBroker V)) bid) = true
  · exfalso
    obtain ⟨v, hv⟩ : ∃ v, getOutcome (run pre (emptyBroker V)) bid = some (.value v) := by
      cases ho : getOutcome (run pre (emptyBroker V)) bid with
      | none => rw [ho] at hval; cases hval
      | some o =>
        cases o with
        | value v => exact ⟨v, rfl⟩
        | skipped ms => rw [ho] at hval; cases hval
        | failed e => rw [ho] at hval; cases hval
    have hbidpre : bid ∈ pre.map (·.id) := by
      rcases run_some_origin pre (emptyBroker V) bid (.value v) hv with hm | hs
      · exact hm
      · cases hs
    have hbidA : bid ≠ A.id := fun he => hApre (he ▸ hbidpre)
    have hbidpost : bid ∉ post.map (·.id) := by
      intro hmem
      exact hdisj hbidpre (List.mem_cons_of_mem _ hmem)
    have hfinal : getOutcome (run (pre ++ A :: post) (emptyBroker V)) bid = some (.value v) := by
      rw [hsplit]
      rw [(run_stable post _ bid hbidpost).1]
      rw [getOutcome_step_other _ A bid hbidA]
      exact hv
    exact hnotval v hfinal
  · have hnv : isValue (getOutcome (run pre (emptyBroker V)) bid) = false := by
      cases hiv : isValue (getOutcome (run pre (emptyBroker V)) bid) with
      | true => exact absurd hiv hval
      | false => rfl
    obtain ⟨hout, hmem, hinv⟩ := step_skips (run pre (emptyBroker V)) A bid hreq hnv
    constructor
    · refine ⟨_, ?_, hmem⟩
      rw [hsplit, (run_stable post _ A.id hApost).1, hout]
    · rw [hsplit, (run_stable post _ A.id hApost).2]
      have hc0 : (run pre (emptyBroker V)).invocations.count A.id = 0 := by
        rw [(run_stable pre _ A.id hApre).2]
        rfl
      rw [show (step (run pre (emptyBroker V)) A).invocations =
        (run pre (emptyBroker V)).invocations from hinv]
      exact hc0

/-- Witness for C2: a two-unit run in which the provider (identity 0) raises
and the rule (identity 1) requires it; the rule is skipped and its body is
never invoked. -/
theorem C2_skip_propagation_witness :
    ((∃ ms, getOutcome (run [unitB2, unitA2] (emptyBroker Nat)) unitA2.id =
        some (.skipped ms) ∧ (0 : Nat) ∈ ms)
      ∧ (run [unitB2, unitA2] (emptyBroker Nat)).invocations.count unitA2.id = 0) :=
  C2_skip_propagation [unitB2, unitA2] unitA2 0
    (by decide)
    (List.Mem.tail _ (List.Mem.head _))
    (by decide)
    (Or.inr ⟨"boom", rfl⟩)

/-- A successful Registry lookup returns a registered unit with the looked-up
identity. -/
theorem lookup_mem_units (reg : Registry) (n : Nat) (u : RegUnit)
    (h : reg.lookup n = some u) : u ∈ reg.units ∧ u.id = n := by
  unfold Registry.lookup at h
  exact ⟨List.mem_of_find?_eq_some h, by simpa using List.find?_some h⟩

/-- A registered identity can be looked up. -/
theorem lookup_isSome_of_mem_ids (reg : Registry) (n : Nat) (h : n ∈ reg.ids) :
    ∃ u, reg.lookup n = some u := by
  unfold Registry.ids at h
  obtain ⟨u, hu, hid⟩ := List.mem_map.mp h
  have hs : (reg.units.find? (fun w => w.id == n)).isSome := by
    rw [List.find?_isSome]
    exact ⟨u, hu, by simp [hid]⟩
  obtain ⟨w, hw⟩ := Option.isSome_iff_exists.mp hs
  exact ⟨w, hw⟩

/-- With distinct identities, looking up a registered unit's identity returns
that unit. -/
theorem find?_id_of_mem_nodup :
    ∀ (units : List RegUnit), (units.map (·.id)).Nodup →
      ∀ u ∈ units, units.find? (fun w => w.id == u.id) = some u := by
  intro units
  induction units with
  | nil => intro _ u hu; cases hu
  | cons v rest ih =>
    intro hnd u hu
    rw [List.map_cons] at hnd
    obtain ⟨hvid, hnd2⟩ := List.nodup_cons.mp hnd
    rcases List.mem_cons.mp hu with rfl | hu2
    · simp [List.find?_cons]
    · have hmem : u.id ∈ rest.map (·.id) := List.mem_map.mpr ⟨u, hu2, rfl⟩
      have hne : (v.id == u.id) = false := by
        simp only [beq_eq_false_iff_ne, ne_eq]
        exact fun he => hvid (he ▸ hmem)
      rw [List.find?_cons, hne]
      exact ih hnd2 u hu2

/-- A lookup result induces dependency edges to each of its dependencies. -/
theorem depEdge_of_lookup (reg : Registry) (n d : Nat) (u : RegUnit)
    (h : reg.lookup n = some u) (hd : d ∈ depsOf u) : DepEdge reg n d :=
  ⟨u, (lookup_mem_units reg n u h).1, (lookup_mem_units reg n u h).2, hd⟩

/-- Walking a reversed-edge chain from its head reaches every element of its
tail through one or more edges. -/
theorem transGen_of_chain {R : Nat → Nat → Prop} :
    ∀ (l : List Nat) (x : Nat), List.Chain' (fun a b => R b a) (x :: l) →
      ∀ y ∈ l, Relation.TransGen R y x := by
  intro l
  induction l with
  | nil => intro x _ y hy; cases hy
  | cons z rest ih =>
    intro x hch y hy
    have hzx : R z x := (List.chain'_cons.mp hch).1
    have hch2 : List.Chain' (fun a b => R b a) (z :: rest) := (List.chain'_cons.mp hch).2
    rcases List.mem_cons.mp hy with rfl | hy2
    · exact Relation.TransGen.single hzx
    · exact Relation.TransGen.tail (ih z hch2 y hy2) hzx

/-- A node on the current visiting path that is reached again closes a
dependency cycle, which an acyclic registry forbids. -/
theorem no_revisit_of_acyclic (reg : Registry) (hac : Acyclic reg)
    (visiting : List Nat) (n : Nat)
    (hch : List.Chain' (fun a b => DepEdge reg b a) (n :: visiting))
    (hmem : n ∈ visiting) : False :=
  hac n (transGen_of_chain visiting n hch n hmem)

/-- A distinct list of registered identities is no longer than the identity
list. -/
theorem visiting_length_le (reg : Registry) (visiting : List Nat)
    (hnd : visiting.Nodup) (hsub : ∀ x ∈ visiting, x ∈ reg.ids) :
    visiting.length ≤ reg.ids.length :=
  (List.Nodup.subperm hnd (by intro x hx; exact hsub x hx)).length_le

/-- A rank function that strictly decreases along every declared dependency
edge certifies acyclicity. -/
theorem acyclic_of_rank (reg : Registry) (rank : Nat → Nat)
    (h : ∀ u ∈ reg.units, ∀ d ∈ depsOf u, rank d < rank u.id) : Acyclic reg := by
  have hedge : ∀ a b, DepEdge reg a b → rank b < rank a := by
    rintro a b ⟨u, hu, rfl, hd⟩
    exact h u hu b hd
  have htg : ∀ a b, Relation.TransGen (DepEdge reg) a b → rank b < rank a := by
    intro a b htg
    induction htg with
    | single h1 => exact hedge _ _ h1
    | tail _ h1 ih => exact lt_trans (hedge _ _ h1) ih
  intro n hn
  exact lt_irrefl _ (htg n n hn)

/-- `dfsDeps` on an empty list emits nothing new. -/
theorem dfsDeps_nil (reg : Registry) (fuel : Nat) (visiting out : List Nat) :
    dfsDeps reg fuel visiting out [] = .ok out := rfl

/-- `dfsDeps` on a cons visits the head and threads the emitted prefix into
the tail. -/
theorem dfsDeps_cons (reg : Registry) (fuel : Nat) (visiting out : List Nat) (d : Nat)
    (ds : List Nat) :
    dfsDeps reg fuel visiting out (d :: ds) =
      match dfsVisit reg fuel visiting out d with
      | .error e => .error e
      | .ok out1 => dfsDeps reg fuel visiting out1 ds := by
  have hb : dfsDeps reg fuel visiting out (d :: ds) =
      dfsVisit reg fuel visiting out d >>= fun acc =>
        List.foldlM (fun acc d => dfsVisit reg fuel visiting acc d) acc ds := rfl
  cases hx : dfsVisit reg fuel visiting out d with
  | error e => rw [hb, hx]; rfl
  | ok out1 => rw [hb, hx]; rfl

/-- Totality of the depth-first sort on well-formed acyclic registries: with
enough fuel, a visit of any registered node from any consistent visiting path
succeeds, and so does a visit of any list of registered nodes hanging off the
path. -/
theorem dfs_total (reg : Registry) (hcl : ClosedReg reg)
    (hac : Acyclic reg) :
    ∀ fuel : Nat,
      (∀ (visiting out : List Nat) (n : Nat),
        reg.ids.length + 1 - visiting.length ≤ fuel →
        visiting.Nodup → (∀ x ∈ visiting, x ∈ reg.ids) →
        List.Chain' (fun a b => DepEdge reg b a) (n :: visiting) →
        n ∈ reg.ids →
        ∃ r, dfsVisit reg fuel visiting out n = .ok r)
      ∧ (∀ (visiting out : List Nat) (ds : List Nat),
        reg.ids.length + 1 - visiting.length ≤ fuel →
        visiting.Nodup → (∀ x ∈ visiting, x ∈ reg.ids) →
        (∀ d ∈ ds, List.Chain' (fun a b => DepEdge reg b a) (d :: visiting) ∧ d ∈ reg.ids) →
        ∃ r, dfsDeps reg fuel visiting out ds = .ok r) := by
  intro fuel
  induction fuel with
  | zero =>
    constructor
    · intro visiting out n hfuel hvnd hvsub hch hn
      exfalso
      have hle := visiting_length_le reg visiting hvnd hvsub
      omega
    · intro visiting out ds hfuel hvnd hvsub hds
      exfalso
      have hle := visiting_length_le reg visiting hvnd hvsub
      omega
  | succ f ih =>
    have hV : ∀ (visiting out : List Nat) (n : Nat),
        reg.ids.length + 1 - visiting.length ≤ f + 1 →
        visiting.Nodup → (∀ x ∈ visiting, x ∈ reg.ids) →
        List.Chain' (fun a b => DepEdge reg b a) (n :: visiting) →
        n ∈ reg.ids →
        ∃ r, dfsVisit reg (f + 1) visiting out n = .ok r := by
      intro visiting out n hfuel hvnd hvsub hch hn
      by_cases hout : n ∈ out
      · exact ⟨out, by simp [dfsVisit, hout]⟩
      · by_cases hvis : n ∈ visiting
        · exact absurd hvis (fun h => no_revisit_of_acyclic reg hac visiting n hch h)
        · obtain ⟨u, hu⟩ := lookup_isSome_of_mem_ids reg n hn
          have hle := visiting_length_le reg visiting hvnd hvsub
          have hfuel2 : reg.ids.length + 1 - (n :: visiting).length ≤ f := by
            have hlc : (n :: visiting).length = visiting.length + 1 := rfl
            omega
          have hnd2 : (n :: visiting).Nodup := List.nodup_cons.mpr ⟨hvis, hvnd⟩
          have hsub2 : ∀ x ∈ n :: visiting, x ∈ reg.ids := by
            intro x hx
            rcases List.mem_cons.mp hx with rfl | hx2
            · exact hn
            · exact hvsub x hx2
          have hds : ∀ d ∈ depsOf u,
              List.Chain' (fun a b => DepEdge reg b a) (d :: n :: visiting) ∧ d ∈ reg.ids := by
            intro d hd
            refine ⟨?_, ?_⟩
            · rw [List.chain'_cons]
              exact ⟨depEdge_of_lookup reg n d u hu hd, hch⟩
            · obtain ⟨u2, hu2, hid2⟩ := hcl u (lookup_mem_units reg n u hu).1 d hd
              exact List.mem_map.mpr ⟨u2, hu2, hid2⟩
          obtain ⟨r, hr⟩ := ih.2 (n :: visiting) out (depsOf u) hfuel2 hnd2 hsub2 hds
          refine ⟨r ++ [n], ?_⟩
          have hr2 : (depsOf u).foldlM
              (fun acc d => dfsVisit reg f (n :: visiting) acc d) out = .ok r := hr
          simp only [dfsVisit]
          rw [if_neg hout, if_neg hvis]
          simp only [hu, hr2]
    refine ⟨hV, ?_⟩
    intro visiting out ds hfuel hvnd hvsub
    revert out
    induction ds with
    | nil => intro out _; exact ⟨out, rfl⟩
    | cons d rest ihd =>
      intro out hds
      obtain ⟨r1, hr1⟩ := hV visiting out d hfuel hvnd hvsub
        (hds d (List.mem_cons_self _ _)).1 (hds d (List.mem_cons_self _ _)).2
      obtain ⟨r2, hr2⟩ := ihd r1 (fun d2 hd2 => hds d2 (List.mem_cons_of_mem _ hd2))
      refine ⟨r2, ?_⟩
      rw [dfsDeps_cons, hr1]
      exact hr2

/-- Partial correctness of the depth-first sort: a successful visit only
appends (never touching nodes on the visiting path), preserves the emitted
prefix invariant `TopoOut`, and ends with the visited node (or nodes) emitted. -/
theorem dfs_invariants (reg : Registry) :
    ∀ fuel : Nat,
      (∀ (visiting out : List Nat) (n : Nat) (r : List Nat),
        dfsVisit reg fuel visiting out n = .ok r → TopoOut reg out →
        (∃ extra, r = out ++ extra ∧ ∀ x ∈ extra, x ∉ visiting)
        ∧ TopoOut reg r ∧ n ∈ r)
      ∧ (∀ (visiting ds out r : List Nat),
        dfsDeps reg fuel visiting out ds = .ok r → TopoOut reg out →
        (∃ extra, r = out ++ extra ∧ ∀ x ∈ extra, x ∉ visiting)
        ∧ TopoOut reg r ∧ ∀ d ∈ ds, d ∈ r) := by
  intro fuel
  induction fuel with
  | zero =>
    constructor
    · intro visiting out n r h _
      simp [dfsVisit] at h
    · intro visiting ds out r h hT
      cases ds with
      | nil =>
        rw [dfsDeps_nil] at h
        obtain rfl := Except.ok.inj h
        exact ⟨⟨[], (List.append_nil out).symm, by intro x hx; cases hx⟩, hT,
          by intro d hd; cases hd⟩
      | cons d rest =>
        rw [dfsDeps_cons] at h
        simp [dfsVisit] at h
  | succ f ih =>
    have hVisit : ∀ (visiting out : List Nat) (n : Nat) (r : List Nat),
        dfsVisit reg (f + 1) visiting out n = .ok r → TopoOut reg out →
        (∃ extra, r = out ++ extra ∧ ∀ x ∈ extra, x ∉ visiting)
        ∧ TopoOut reg r ∧ n ∈ r := by
      intro visiting out n r h hT
      simp only [dfsVisit] at h
      by_cases hout : n ∈ out
      · rw [if_pos hout] at h
        obtain rfl := Except.ok.inj h
        exact ⟨⟨[], (List.append_nil out).symm, by intro x hx; cases hx⟩, hT, hout⟩
      · rw [if_neg hout] at h
        by_cases hvis : n ∈ visiting
        · rw [if_pos hvis] at h
          cases h
        · rw [if_neg hvis] at h
          cases hu : reg.lookup n with
          | none =>
            simp only [hu] at h
            cases h
          | some u =>
            simp only [hu] at h
            cases hd : dfsDeps reg f (n :: visiting) out (depsOf u) with
            | error e =>
              have hd2 : (depsOf u).foldlM
                  (fun acc d => dfsVisit reg f (n :: visiting) acc d) out = .error e := hd
              rw [hd2] at h
              cases h
            | ok out1 =>
              have hd2 : (depsOf u).foldlM
                  (fun acc d => dfsVisit reg f (n :: visiting) acc d) out = .ok out1 := hd
              rw [hd2] at h
              obtain rfl := Except.ok.inj h
              obtain ⟨⟨extra1, hsplit, hdisj⟩, hT1, hmem1⟩ :=
                ih.2 (n :: visiting) (depsOf u) out out1 hd hT
              have hnmem : n ∉ out1 := by
                rw [hsplit]
                intro hm
                rcases List.mem_append.mp hm with hm1 | hm1
                · exact hout hm1
                · exact hdisj n hm1 (List.mem_cons_self _ _)
              unfold TopoOut at hT1 ⊢
              obtain ⟨hnd1, hreg1, htp1⟩ := hT1
              refine ⟨⟨extra1 ++ [n], ?_, ?_⟩, ⟨?_, ?_, ?_⟩, ?_⟩
              · rw [hsplit, List.append_assoc]
              · intro x hx
                rcases List.mem_append.mp hx with hx1 | hx1
                · exact fun hv => hdisj x hx1 (List.mem_cons_of_mem _ hv)
                · obtain rfl := List.mem_singleton.mp hx1
                  exact hvis
              · rw [List.nodup_append]
                exact ⟨hnd1, List.nodup_singleton n,
                  fun a ha hb => hnmem ((List.mem_singleton.mp hb) ▸ ha)⟩
              · intro m hm
                rcases List.mem_append.mp hm with hm1 | hm1
                · exact hreg1 m hm1
                · obtain rfl := List.mem_singleton.mp hm1
                  exact ⟨u, (lookup_mem_units reg m u hu).1, (lookup_mem_units reg m u hu).2⟩
              · intro m hm um hlk d2 hd2m
                rcases List.mem_append.mp hm with hm1 | hm1
                · obtain ⟨hdin, hidx⟩ := htp1 m hm1 um hlk d2 hd2m
                  refine ⟨List.mem_append_left _ hdin, ?_⟩
                  rw [List.indexOf_append_of_mem hdin, List.indexOf_append_of_mem hm1]
                  exact hidx
                · obtain rfl := List.mem_singleton.mp hm1
                  obtain rfl : um = u := by
                    rw [hu] at hlk
                    exact (Option.some.inj hlk).symm
                  have hdin : d2 ∈ out1 := hmem1 d2 hd2m
                  refine ⟨List.mem_append_left _ hdin, ?_⟩
                  rw [List.indexOf_append_of_mem hdin,
                    List.indexOf_append_of_not_mem hnmem]
                  have hlt : out1.indexOf d2 < out1.length :=
                    List.indexOf_lt_length.mpr hdin
                  omega
              · exact List.mem_append_right _ (List.mem_singleton.mpr rfl)
    refine ⟨hVisit, ?_⟩
    intro visiting ds
    induction ds with
    | nil =>
      intro out r h hT
      rw [dfsDeps_nil] at h
      obtain rfl := Except.ok.inj h
      exact ⟨⟨[], (List.append_nil out).symm, by intro x hx; cases hx⟩, hT,
        by intro d hd; cases hd⟩
    | cons d rest ihd =>
      intro out r h hT
      rw [dfsDeps_cons] at h
      cases hv : dfsVisit reg (f + 1) visiting out d with
      | error e =>
        rw [hv] at h
        cases h
      | ok out1 =>
        rw [hv] at h
        obtain ⟨⟨e1, hs1, hdj1⟩, hT1, hm1⟩ := hVisit visiting out d out1 hv hT
        obtain ⟨⟨e2, hs2, hdj2⟩, hT2, hm2⟩ := ihd out1 r h hT1
        refine ⟨⟨e1 ++ e2, ?_, ?_⟩, hT2, ?_⟩
        · rw [hs2, hs1, List.append_assoc]
        · intro x hx
          rcases List.mem_append.mp hx with hx1 | hx1
          · exact hdj1 x hx1
          · exact hdj2 x hx1
        · intro d2 hd2
          rcases List.mem_cons.mp hd2 with rfl | hd2r
          · rw [hs2]
            exact List.mem_append_left _ hm1
          · exact hm2 d2 hd2r

/-- Claim C3 (amended): for every acyclic registry with distinct identities
whose referenced dependencies are all registered, `resolve` terminates with an
order containing every registered identity exactly once, in which for every
required or optional edge (a -> b) the dependency b precedes the dependent a. -/
theorem C3_resolve_topo (reg : Registry) (hnd : reg.ids.Nodup) (hcl : ClosedReg reg)
    (hac : Acyclic reg) :
    ∃ order, resolve reg = .ok order
      ∧ order.Nodup
      ∧ (∀ i, i ∈ order ↔ i ∈ reg.ids)
      ∧ (∀ u ∈ reg.units, ∀ d ∈ depsOf u,
          d ∈ order ∧ order.indexOf d < order.indexOf u.id) := by
  have hlen : reg.ids.length = reg.units.length := by
    simp [Registry.ids]
  have hfuel : reg.ids.length + 1 - ([] : List Nat).length ≤ reg.units.length + 1 := by
    simp [hlen]
  obtain ⟨order, hok⟩ := (dfs_total reg hcl hac (reg.units.length + 1)).2 [] [] reg.ids
    hfuel List.nodup_nil (by intro x hx; cases hx)
    (fun d hd => ⟨by simp, hd⟩)
  have hres : resolve reg = .ok order := hok
  have hT0 : TopoOut reg [] := by
    unfold TopoOut
    refine ⟨List.nodup_nil, ?_, ?_⟩ <;> intro m hm <;> cases hm
  obtain ⟨-, hT, hall⟩ := (dfs_invariants reg (reg.units.length + 1)).2 [] reg.ids [] order hok hT0
  unfold TopoOut at hT
  obtain ⟨hndo, hrego, htopo⟩ := hT
  refine ⟨order, hres, hndo, ?_, ?_⟩
  · intro i
    constructor
    · intro hi
      obtain ⟨u, hu, hid⟩ := hrego i hi
      exact List.mem_map.mpr ⟨u, hu, hid⟩
    · intro hi
      exact hall i hi
  · intro u hu d hd
    have hidm : u.id ∈ order := hall u.id (List.mem_map.mpr ⟨u, hu, rfl⟩)
    have hlk : reg.lookup u.id = some u :=
      find?_id_of_mem_nodup reg.units hnd u hu
    exact htopo u.id hidm u hlk d hd

/-- Witness for C3 at the registry regW: three units with 1 requiring 0 and 2
requiring 0 with 1 optional. -/
theorem C3_resolve_topo_witness :
    ∃ order, resolve regW = .ok order
      ∧ order.Nodup
      ∧ (∀ i, i ∈ order ↔ i ∈ regW.ids)
      ∧ (∀ u ∈ regW.units, ∀ d ∈ depsOf u,
          d ∈ order ∧ order.indexOf d < order.indexOf u.id) :=
  C3_resolve_topo regW (by decide) (by decide)
    (acyclic_of_rank regW (fun i => i) (by decide))

/-- Claim C3 counterexample: the registry regBad is acyclic, yet `resolve`
does not return an order; it fails fast with `UnresolvedDependency 1`,
because unit 0 references the unregistered identity 1. -/
theorem C3_counterexample :
    Acyclic regBad ∧ resolve regBad = .error (.unresolved 1) :=
  ⟨acyclic_of_rank regBad (fun i => 1 - i) (by decide), by decide⟩

/-- Witness for C7 at a concrete unit identity. -/
theorem C7_preprocess_observers_witness :
    (preprocessRegister ⟨[]⟩).observers =
      [ (.progressBarCb, .tag .rule), (.progressBarCb, .tag .condition)
      , (.progressBarCb, .tag .incident), (.progressBarCb, .tag .parser) ]
    ∧ notifyList (preprocessRegister ⟨[]⟩) 7 .rule = [.progressBarCb]
    ∧ notifyList (preprocessRegister ⟨[]⟩) 7 .condition = [.progressBarCb]
    ∧ notifyList (preprocessRegister ⟨[]⟩) 7 .incident = [.progressBarCb]
    ∧ notifyList (preprocessRegister ⟨[]⟩) 7 .parser = [.progressBarCb]
    ∧ notifyList (preprocessRegister ⟨[]⟩) 7 .datasource = [] :=
  C7_preprocess_observers 7
